import Mathlib

/-!
Verification of the SMTP probing / DNS decoding / domains-cache toolkit.

The C++ sources are shallowly embedded: byte buffers become `List Nat`
(each entry intended `< 256`), `std::string` becomes `List Char` or
`String`, machine integers become `Nat`/`Int` with explicit truncation
where the width matters, fallible code returns `Option`/sum-like
inductives, and out-of-bounds accesses (undefined behaviour in C++)
are made explicit as dedicated result constructors.
-/

namespace SmtpPorting

/-- Model of C `isspace` in the C locale (space, \t, \n, \v, \f, \r). -/
def isSpaceChar (c : Char) : Bool :=
  c.toNat = 32 || (9 ≤ c.toNat && c.toNat ≤ 13)

/-- Model of C `isdigit`. -/
def isDigitChar (c : Char) : Bool :=
  48 ≤ c.toNat && c.toNat ≤ 57

namespace Smtp

/-- Value of a decimal digit list, most significant first
(the accumulator loop of `std::stoi`). -/
def digitsVal (l : List Char) : Nat :=
  l.foldl (fun a c => a * 10 + (c.toNat - 48)) 0

/-- The digit-consuming core of `std::stoi`: take the maximal leading
run of digits; fail (`invalid_argument`) when there is none. -/
def readDigits (l : List Char) : Option Nat :=
  match l.takeWhile (fun c => isDigitChar c) with
  | [] => none
  | ds => some (digitsVal ds)

/-- Model of `std::stoi` on a short string: optional leading
whitespace, optional sign, maximal digit run; `none` models the
`std::invalid_argument` exception. -/
def stoi (l : List Char) : Option Int :=
  match l.dropWhile (fun c => isSpaceChar c) with
  | [] => none
  | c :: cs =>
    if c = '-' then
      match readDigits cs with
      | some n => some (-(n : Int))
      | none => none
    else if c = '+' then
      match readDigits cs with
      | some n => some ((n : Int))
      | none => none
    else
      match readDigits (c :: cs) with
      | some n => some ((n : Int))
      | none => none

/-- `utils::GetResponseCode`: `stoi` of the first three characters,
0 on short input or on a parse exception. -/
def GetResponseCode (response : List Char) : Int :=
  if response.length < 3 then 0
  else
    match stoi (response.take 3) with
    | some v => v
    | none => 0

/-- `utils::IsSuccessResponse`. -/
def IsSuccessResponse (response : List Char) : Bool :=
  if response.length < 3 then false
  else
    let code := GetResponseCode response
    decide (200 ≤ code) && decide (code < 400)

/-- `smtp::AuthResult`. -/
structure AuthResult where
  success : Bool
  error_message : List Char
  response_code : Int
  username : List Char
  password : List Char
deriving DecidableEq, Repr

/-- The `AuthResult` built by `SMTPBruteForceTask::ProcessResponse`
from a final reply. -/
def ProcessResponse (response username password : List Char) : AuthResult :=
  { success := IsSuccessResponse response
    error_message := response
    response_code := GetResponseCode response
    username := username
    password := password }

/-- Completion test of `SMTPBruteForceTask::ReadResponse`: the
accumulated text has length at least 4, a space at index 3 and digits
at indices 0..2 (a property of the first line only). -/
def responseComplete (r : List Char) : Bool :=
  decide (4 ≤ r.length) && decide (r.getD 3 '?' = ' ')
    && isDigitChar (r.getD 0 '?') && isDigitChar (r.getD 1 '?')
    && isDigitChar (r.getD 2 '?')

/-- `SMTPBruteForceTask::ReadResponse`: repeatedly `Receive` a chunk
(modelled as the next element of `chunks`), append it, and stop when
the accumulated response is complete.  An exhausted chunk list models
`Receive` returning `<= 0`, where the source returns `false`. -/
def ReadResponse : List (List Char) → List Char → Option (List Char)
  | [], _ => none
  | chunk :: rest, acc =>
    let r := acc ++ chunk
    if responseComplete r then some r else ReadResponse rest r

/-- `SMTPBruteForcer::GetNextCredentials`: hand out the pair at the
current `(user_index, pass_index)` cursor and advance it, wrapping the
password index; once the user index passes the end, return the
`("", "")` sentinel and leave the cursor unchanged.  The source indexes
`passwords[current_pass_index_]` unchecked, which is in range whenever
`passwords` is non-empty (the cursor invariant keeps the index below
the length); `getD` with a default models the in-range read. -/
def GetNextCredentials (users pwds : List String) (s : Nat × Nat) :
    (String × String) × (Nat × Nat) :=
  if users.length ≤ s.1 then (("", ""), s)
  else
    let u := users.getD s.1 ""
    let p := pwds.getD s.2 ""
    if pwds.length ≤ s.2 + 1 then ((u, p), (s.1 + 1, 0))
    else ((u, p), (s.1, s.2 + 1))

/-- `SMTPBruteForcer::WorkerThread` as a single sequential worker with
no stop request: repeatedly draw a credential pair, exit as soon as
both components are empty, otherwise run the attempt (recorded in the
returned list) and continue.  `fuel` bounds the number of loop
iterations; every theorem below supplies enough of it. -/
def WorkerRun (users pwds : List String) : Nat × Nat → Nat → List (String × String)
  | _, 0 => []
  | s, fuel + 1 =>
    let step := GetNextCredentials users pwds s
    if step.1.1 = "" ∧ step.1.2 = "" then []
    else step.1 :: WorkerRun users pwds step.2 fuel

/-- Row-major cartesian product `usernames x passwords`
(the order the spec prescribes). -/
def rowMajor (users pwds : List String) : List (String × String) :=
  users.flatMap (fun u => pwds.map (fun p => (u, p)))

/-- The row-major product from cursor position `(ui, pi)` onward:
the rest of user `ui`'s row, then all full rows below it. -/
def rowMajorFrom (users pwds : List String) (ui pi : Nat) : List (String × String) :=
  if ui < users.length then
    ((pwds.drop pi).map (fun p => (users.getD ui "", p)))
      ++ ((users.drop (ui + 1)).flatMap (fun u => pwds.map (fun p => (u, p))))
  else []

end Smtp

namespace Cache

/-- `cache::CacheEntry`; the monotonic clock instant is a `Nat`. -/
structure CacheEntry where
  domain : String
  ip_address : String
  expiration_time : Nat
deriving DecidableEq, Repr

/-- The `cache_.find(domain)` lookup of `DomainsCache`
(first entry whose key matches). -/
def findEntry (cache : List CacheEntry) (domain : String) : Option CacheEntry :=
  cache.find? (fun e => e.domain == domain)

/-- `DomainsCache::GetDomain` at clock value `now`: return the stored
address when the entry is unexpired; erase the entry and report
absence when it has expired.  Returns the lookup result and the
post-call map. -/
def GetDomain (now : Nat) (cache : List CacheEntry) (domain : String) :
    Option String × List CacheEntry :=
  match findEntry cache domain with
  | some e =>
    if now < e.expiration_time then (some e.ip_address, cache)
    else (none, cache.eraseP (fun e2 => e2.domain == domain))
  | none => (none, cache)

/-- `DomainsCache::AddDomain`: `cache_[domain] = entry` replaces any
prior entry for the key and stamps `now + ttl`. -/
def AddDomain (now ttl : Nat) (cache : List CacheEntry) (domain ip : String) :
    List CacheEntry :=
  ⟨domain, ip, now + ttl⟩ :: cache.eraseP (fun e => e.domain == domain)

/-- `DomainsCache::Cleanup`: drop every entry with `now >= expiration_time`. -/
def Cleanup (now : Nat) (cache : List CacheEntry) : List CacheEntry :=
  cache.filter (fun e => now < e.expiration_time)

end Cache

namespace Dns

/-- The distinct `DNSParseError` messages thrown by `DNSExtractor`. -/
inductive DNSErr where
  | invalidPointer        -- "Invalid compression pointer"
  | tooManyJumps          -- "Too many compression jumps"
  | invalidPointerOffset  -- "Invalid compression pointer offset"
  | labelExceedsBuffer    -- "Label length exceeds buffer"
  | rdataTooSmall         -- "Buffer too small for RDATA"
deriving DecidableEq, Repr

/-- Outcome of `DNSExtractor::ExtractDomainName`.  `jumps` mirrors the
source's jump counter (the number of compression pointers followed,
plus the final failed attempt on `tooManyJumps`).  `oobRead` makes the
source's unchecked `buffer[offset]` access explicit: the C++ reads out
of bounds (undefined behaviour) at that index.  `fuelOut` is a model
artefact proven unreachable below. -/
inductive NameResult where
  | ok (name : List Nat) (offset : Nat) (jumps : Nat)
  | err (e : DNSErr) (jumps : Nat)
  | oobRead (index : Nat) (jumps : Nat)
  | fuelOut
deriving DecidableEq, Repr

/-- The `while` loop of `DNSExtractor::ExtractDomainName`.  `off` is
the local cursor, `origOff` the source's `originalOffset`, `jumped`
and `jumps` its flags, `acc` the accumulated domain bytes (`46` is
the dot).  `maxJumps = 128` as in the source; the jump counter is
compared before incrementing (`jumps++ > maxJumps`). -/
def extractLoop (buf : List Nat) : Nat → Nat → Nat → Bool → Nat → List Nat → NameResult
  | 0, _, _, _, _, _ => .fuelOut
  | fuel + 1, off, origOff, jumped, jumps, acc =>
    match buf.get? off with
    | none => .oobRead off jumps
    | some labelLength =>
      if labelLength = 0 then
        .ok acc (if jumped then origOff else off + 1) jumps
      else if labelLength &&& 192 = 192 then
        if buf.length < off + 2 then .err .invalidPointer jumps
        else if 128 < jumps then .err .tooManyJumps jumps
        else
          let target := ((labelLength &&& 63) <<< 8) ||| (buf.get? (off + 1)).getD 0
          if buf.length ≤ target then .err .invalidPointerOffset jumps
          else
            extractLoop buf fuel target (if jumped then origOff else origOff + 2)
              true (jumps + 1) acc
      else
        if buf.length < off + 1 + labelLength then .err .labelExceedsBuffer jumps
        else
          extractLoop buf fuel (off + labelLength + 1)
            (if jumped then origOff else off + labelLength + 1) jumped jumps
            (if acc = [] then (buf.drop (off + 1)).take labelLength
             else acc ++ 46 :: (buf.drop (off + 1)).take labelLength)

/-- `DNSExtractor::ExtractDomainName` on buffer `buf` starting at
`off`, with fuel that the termination theorem shows is never
exhausted. -/
def ExtractDomainName (buf : List Nat) (off : Nat) : NameResult :=
  extractLoop buf (130 * (buf.length + 1) + buf.length + 2) off off false 0 []

/-- Number of compression pointers followed, read off a result. -/
def resultJumps : NameResult → Nat
  | .ok _ _ j => j
  | .err _ j => j
  | .oobRead _ j => j
  | .fuelOut => 0

/-- `DNSExtractor::ReadUInt16`: two unchecked byte reads; `.error i`
reports the first out-of-bounds index the C++ would access.  The value
is truncated to 16 bits as the `uint16_t` assignment does. -/
def ReadUInt16 (buf : List Nat) (off : Nat) : Except Nat (Nat × Nat) :=
  match buf.get? off with
  | none => .error off
  | some a =>
    match buf.get? (off + 1) with
    | none => .error (off + 1)
    | some b => .ok ((((a <<< 8) ||| b) % 65536), off + 2)

/-- `DNSExtractor::ReadUInt32`: four unchecked byte reads, value
truncated to 32 bits. -/
def ReadUInt32 (buf : List Nat) (off : Nat) : Except Nat (Nat × Nat) :=
  match buf.get? off, buf.get? (off + 1), buf.get? (off + 2), buf.get? (off + 3) with
  | none, _, _, _ => .error off
  | some _, none, _, _ => .error (off + 1)
  | some _, some _, none, _ => .error (off + 2)
  | some _, some _, some _, none => .error (off + 3)
  | some a, some b, some c, some d =>
    .ok ((((a <<< 24) ||| (b <<< 16) ||| (c <<< 8) ||| d) % 4294967296), off + 4)

/-- `dns::DNSHeader`. -/
structure DNSHeader where
  id : Nat
  flags : Nat
  qdcount : Nat
  ancount : Nat
  nscount : Nat
  arcount : Nat
deriving DecidableEq, Repr

/-- `dns::DNSQuestion`; the name is the decoded byte string. -/
structure DNSQuestion where
  qname : List Nat
  qtype : Nat
  qclass : Nat
deriving DecidableEq, Repr

/-- `dns::DNSResourceRecord`. -/
structure DNSResourceRecord where
  name : List Nat
  rtype : Nat
  rclass : Nat
  ttl : Nat
  rdlength : Nat
  rdata : List Nat
deriving DecidableEq, Repr

/-- `dns::DNSMessage`. -/
structure DNSMessage where
  header : DNSHeader
  questions : List DNSQuestion
  answers : List DNSResourceRecord
  authorities : List DNSResourceRecord
  additionals : List DNSResourceRecord
deriving DecidableEq, Repr

/-- Outcome of one `ParseQuestion` / `ParseResourceRecord` call:
`failed` models a caught `DNSParseError` (the member returns `false`),
`oob` an out-of-bounds read the C++ performs unchecked. -/
inductive SubResult (α : Type) where
  | ok (val : α) (off : Nat)
  | failed
  | oob (idx : Nat)
deriving DecidableEq, Repr

/-- `DNSExtractor::ParseQuestion`: name, then `qtype` and `qclass`
via `ReadUInt16` (whose reads the source does not bounds-check). -/
def ParseQuestion (buf : List Nat) (off : Nat) : SubResult DNSQuestion :=
  match ExtractDomainName buf off with
  | .ok name off2 _ =>
    match ReadUInt16 buf off2 with
    | .error i => .oob i
    | .ok (qtype, off3) =>
      match ReadUInt16 buf off3 with
      | .error i => .oob i
      | .ok (qclass, off4) => .ok ⟨name, qtype, qclass⟩ off4
  | .err _ _ => .failed
  | .oobRead i _ => .oob i
  | .fuelOut => .failed

/-- `DNSExtractor::ParseResourceRecord`: name, four fixed fields, the
RDATA length check (`offset + rdlength > length` throws, caught as
`failed`), then the RDATA bytes. -/
def ParseResourceRecord (buf : List Nat) (off : Nat) : SubResult DNSResourceRecord :=
  match ExtractDomainName buf off with
  | .ok name off2 _ =>
    match ReadUInt16 buf off2 with
    | .error i => .oob i
    | .ok (rtype, off3) =>
      match ReadUInt16 buf off3 with
      | .error i => .oob i
      | .ok (rclass, off4) =>
        match ReadUInt32 buf off4 with
        | .error i => .oob i
        | .ok (ttl, off5) =>
          match ReadUInt16 buf off5 with
          | .error i => .oob i
          | .ok (rdlength, off6) =>
            if buf.length < off6 + rdlength then .failed
            else .ok ⟨name, rtype, rclass, ttl, rdlength, (buf.drop off6).take rdlength⟩
                   (off6 + rdlength)
  | .err _ _ => .failed
  | .oobRead i _ => .oob i
  | .fuelOut => .failed

/-- The `qdcount` question loop of `ParseMessage`. -/
def parseQuestions (buf : List Nat) : Nat → Nat → SubResult (List DNSQuestion)
  | 0, off => .ok [] off
  | n + 1, off =>
    match ParseQuestion buf off with
    | .ok q off2 =>
      match parseQuestions buf n off2 with
      | .ok qs off3 => .ok (q :: qs) off3
      | .failed => .failed
      | .oob i => .oob i
    | .failed => .failed
    | .oob i => .oob i

/-- A resource-record loop of `ParseMessage` (answers, authorities
and additionals all use it). -/
def parseRecords (buf : List Nat) : Nat → Nat → SubResult (List DNSResourceRecord)
  | 0, off => .ok [] off
  | n + 1, off =>
    match ParseResourceRecord buf off with
    | .ok r off2 =>
      match parseRecords buf n off2 with
      | .ok rs off3 => .ok (r :: rs) off3
      | .failed => .failed
      | .oob i => .oob i
    | .failed => .failed
    | .oob i => .oob i

/-- Outcome of `DNSExtractor::ParseMessage`: `headerTooSmall` is the
thrown `DNSParseError` for buffers shorter than the 12-byte header,
`failed` the `return false` paths, `oobRead` an out-of-bounds byte
access the source performs. -/
inductive ParseOutcome where
  | ok (msg : DNSMessage)
  | headerTooSmall
  | failed
  | oobRead (index : Nat)
deriving DecidableEq, Repr

/-- The six big-endian header fields, read from a buffer already
checked to be at least 12 bytes long. -/
def parseHeaderFields (buf : List Nat) : DNSHeader :=
  { id := ((buf.getD 0 0 <<< 8) ||| buf.getD 1 0) % 65536
    flags := ((buf.getD 2 0 <<< 8) ||| buf.getD 3 0) % 65536
    qdcount := ((buf.getD 4 0 <<< 8) ||| buf.getD 5 0) % 65536
    ancount := ((buf.getD 6 0 <<< 8) ||| buf.getD 7 0) % 65536
    nscount := ((buf.getD 8 0 <<< 8) ||| buf.getD 9 0) % 65536
    arcount := ((buf.getD 10 0 <<< 8) ||| buf.getD 11 0) % 65536 }

/-- `DNSExtractor::ParseMessage`: header-size check, header parse,
then exactly `qdcount` questions and `ancount`, `nscount`, `arcount`
resource records, threading the offset. -/
def ParseMessage (buf : List Nat) : ParseOutcome :=
  if buf.length < 12 then .headerTooSmall
  else
    let header := parseHeaderFields buf
    match parseQuestions buf header.qdcount 12 with
    | .failed => .failed
    | .oob i => .oobRead i
    | .ok qs off1 =>
      match parseRecords buf header.ancount off1 with
      | .failed => .failed
      | .oob i => .oobRead i
      | .ok ans off2 =>
        match parseRecords buf header.nscount off2 with
        | .failed => .failed
        | .oob i => .oobRead i
        | .ok auth off3 =>
          match parseRecords buf header.arcount off3 with
          | .failed => .failed
          | .oob i => .oobRead i
          | .ok add _ => .ok ⟨header, qs, ans, auth, add⟩

end Dns

namespace Base64

/-- The standard alphabet `Base64::encoding_table`. -/
def encTable : List Char :=
  "ABCDEFGHIJKLMNOPQRSTUVWXYZabcdefghijklmnopqrstuvwxyz0123456789+/".toList

/-- `encoding_table[i]` (callers always mask the index below 64). -/
def encChar (i : Nat) : Char := encTable.getD i 'A'

/-- `Base64::decoding_table`: index of the character in the alphabet,
`255` (the 0xFF sentinel) for everything else. -/
def decByte (c : Char) : Nat :=
  if encTable.contains c then encTable.indexOf c else 255

/-- One iteration of the `Base64::Encode` loop: pack three octets into
a 24-bit value and emit four alphabet characters. -/
def encodeQuad (a b c : Nat) : List Char :=
  let triple := (a <<< 16) + (b <<< 8) + c
  [encChar ((triple >>> 18) &&& 63), encChar ((triple >>> 12) &&& 63),
   encChar ((triple >>> 6) &&& 63), encChar (triple &&& 63)]

/-- The whole `Base64::Encode` loop: consume three octets at a time,
zero-filling a final short group. -/
def encodeGroups : List Nat → List Char
  | [] => []
  | [a] => encodeQuad a 0 0
  | [a, b] => encodeQuad a b 0
  | a :: b :: c :: rest => encodeQuad a b c ++ encodeGroups rest

/-- The padding fixup at the end of `Base64::Encode`: when
`length % 3 != 0` the source overwrites `output[output_length - 1]`
(and for a remainder of 1 also `output[output_length - 2]`) with
`'='`; `n` is the input length. -/
def applyPad (out : List Char) (n : Nat) : List Char :=
  let outputLength := 4 * ((n + 2) / 3)
  let padding := 3 - n % 3
  if padding < 3 then
    let out1 := out.set (outputLength - 1) '='
    if padding = 2 then out1.set (outputLength - 2) '=' else out1
  else out

/-- `Base64::Encode`: empty input encodes to the empty string;
otherwise run the loop and apply the padding fixup. -/
def Encode (input : List Nat) : List Char :=
  if input.length = 0 then []
  else applyPad (encodeGroups input) input.length

/-- The character-validation loop of `Base64::IsValid`: `i` is the
running index, `padding` the count of `'='` seen so far. -/
def isValidGo (len : Nat) : List Char → Nat → Nat → Bool
  | [], _, _ => true
  | c :: rest, i, padding =>
    if c = '=' then
      if 2 < padding + 1 ∨ i < len - 2 then false
      else isValidGo len rest (i + 1) (padding + 1)
    else if 0 < padding then false
    else if ¬ isSpaceChar c ∧ decByte c = 255 then false
    else isValidGo len rest (i + 1) padding

/-- `Base64::IsValid`. -/
def IsValid (input : List Char) : Bool :=
  if input.isEmpty then true
  else if input.length % 4 ≠ 0 then false
  else isValidGo input.length input 0 0

/-- `output.push_back(b)` guarded by `output.size() < output.capacity()`
as `DecodeBytes` does (with `reserve` giving capacity exactly `cap`). -/
def pushCap (cap : Nat) (out : List Nat) (b : Nat) : List Nat :=
  if out.length < cap then out ++ [b] else out

/-- The `Base64::DecodeBytes` loop: skip whitespace, read four
characters (`'='` contributing 0), rebuild the 24-bit value and emit
up to three bytes, capacity-capped.  A ragged tail of fewer than four
characters would be read out of bounds by the source; it cannot occur
for `IsValid` inputs produced by `Encode`, and the model returns the
accumulator there.  `fuel` bounds the iterations and is always
supplied larger than the input length. -/
def decodeLoop (cap : Nat) : Nat → List Char → List Nat → List Nat
  | 0, _, out => out
  | fuel + 1, s, out =>
    match s.dropWhile (fun c => isSpaceChar c) with
    | [] => out
    | a :: b :: c :: d :: rest =>
      let sa := if a = '=' then 0 else decByte a
      let sb := if b = '=' then 0 else decByte b
      let sc := if c = '=' then 0 else decByte c
      let sd := if d = '=' then 0 else decByte d
      let triple := (sa <<< 18) + (sb <<< 12) + (sc <<< 6) + sd
      let out1 := pushCap cap out ((triple >>> 16) &&& 255)
      let out2 := pushCap cap out1 ((triple >>> 8) &&& 255)
      let out3 := pushCap cap out2 (triple &&& 255)
      decodeLoop cap fuel rest out3
    | _ => out

/-- `Base64::DecodeBytes`: validate, count the trailing padding,
reserve `(length / 4) * 3 - padding` bytes of capacity and run the
loop.  `none` models the thrown `Base64Error`. -/
def DecodeBytes (input : List Char) : Option (List Nat) :=
  if IsValid input then
    let len := input.length
    let p1 : Nat := if input ≠ [] ∧ input.getD (len - 1) '?' = '=' then 1 else 0
    let p2 : Nat := if 1 < len ∧ input.getD (len - 2) '?' = '=' then 1 else 0
    let cap := (len / 4) * 3 - (p1 + p2)
    some (decodeLoop cap (len + 1) input [])
  else none

/-- Closed form of `Encode`: the zero-filled tail characters are
replaced by `'='` directly instead of being overwritten afterwards.
Proved equal to `Encode` below and used to walk the decoder. -/
def encodePadded : List Nat → List Char
  | [] => []
  | [a] => (encodeQuad a 0 0).take 2 ++ ['=', '=']
  | [a, b] => (encodeQuad a b 0).take 3 ++ ['=']
  | a :: b :: c :: rest => encodeQuad a b c ++ encodePadded rest

end Base64

set_option maxRecDepth 10000

namespace Smtp

theorem isDigit_not_space {c : Char} (h : isDigitChar c = true) : isSpaceChar c = false := by
  simp only [isDigitChar, Bool.and_eq_true, decide_eq_true_eq] at h
  simp only [isSpaceChar, Bool.or_eq_false_iff, Bool.and_eq_false_iff,
    decide_eq_false_iff_not]
  omega

/-- Claim C3: for every `AuthResult` a Connection Task builds from a
final reply, the success flag holds iff the response code lies in the
half-open interval `[200, 400)`. -/
theorem auth_outcome_success_iff_code_in_range (r u p : List Char) :
    (ProcessResponse r u p).success = true ↔
      (200 ≤ (ProcessResponse r u p).response_code ∧
        (ProcessResponse r u p).response_code < 400) := by
  simp only [ProcessResponse, IsSuccessResponse]
  by_cases h : r.length < 3
  · simp [GetResponseCode, h]
  · simp [h, Bool.and_eq_true, decide_eq_true_eq]

/-- Claim C8 counterexample: the reply `"25 5.7.8"` does not begin
with three ASCII digits, yet `GetResponseCode` returns 25 (the `stoi`
of the 3-character prefix `"25 "`), not 0 as the claim requires. -/
theorem response_code_nonzero_on_nondigit_prefix :
    (("25 5.7.8").toList.take 3).all (fun c => isDigitChar c) = false ∧
    GetResponseCode ("25 5.7.8").toList = 25 ∧
    GetResponseCode ("25 5.7.8").toList ≠ 0 := by decide

/-- Claim C8 amended: when the first three characters are all ASCII
digits the classified code is the 3-digit number they denote, and a
reply shorter than three characters yields 0; a 3-character prefix
that is not all digits is fed to `stoi`, which may return a nonzero
partial parse instead of 0. -/
theorem response_code_digit_prefix_value :
    (∀ r : List Char, r.length < 3 → GetResponseCode r = 0) ∧
    (∀ (a b c : Char) (rest : List Char),
        isDigitChar a = true → isDigitChar b = true → isDigitChar c = true →
        GetResponseCode (a :: b :: c :: rest) =
          ((a.toNat - 48) * 100 + (b.toNat - 48) * 10 + (c.toNat - 48) : Nat)) := by
  constructor
  · intro r h
    simp [GetResponseCode, h]
  · intro a b c rest ha hb hc
    have hlen : ¬ (a :: b :: c :: rest).length < 3 := by
      simp only [List.length_cons]
      omega
    have htake : (a :: b :: c :: rest).take 3 = [a, b, c] := by rfl
    have hna : ¬ a = '-' := by
      intro h
      rw [h] at ha
      exact absurd ha (by decide)
    have hnp : ¬ a = '+' := by
      intro h
      rw [h] at ha
      exact absurd ha (by decide)
    have hstoi : stoi [a, b, c] =
        some (((a.toNat - 48) * 100 + (b.toNat - 48) * 10 + (c.toNat - 48) : Nat) : Int) := by
      simp only [stoi, List.dropWhile_cons, isDigit_not_space ha, Bool.false_eq_true,
        if_false, if_neg hna, if_neg hnp, readDigits, List.takeWhile_cons, ha, hb, hc,
        if_true, List.takeWhile_nil]
      simp only [digitsVal, List.foldl_cons, List.foldl_nil]
      congr 1
      norm_cast
      omega
    simp only [GetResponseCode, if_neg hlen, htake, hstoi]

theorem response_code_digit_prefix_value_witness :
    GetResponseCode ['5'] = 0 ∧ GetResponseCode ['2', '3', '5'] = 235 :=
  ⟨response_code_digit_prefix_value.1 ['5'] (by decide),
   by
    have h := response_code_digit_prefix_value.2 '2' '3' '5' [] (by decide)
      (by decide) (by decide)
    simpa using h⟩

/-- Claim C2 counterexample: on the spec's S6 final reply, delivered
line by line, `ReadResponse` never sees a space at index 3 of the
accumulated text (the first line has `'-'` there), exhausts the
stream and fails, instead of returning the concatenated reply. -/
theorem smtp_multiline_reply_read_fails :
    ReadResponse ["535-5.7.8 authentication failed\r\n".toList,
        "535 5.7.8 try later\r\n".toList] [] = none ∧
    ReadResponse ["535-5.7.8 authentication failed\r\n".toList,
        "535 5.7.8 try later\r\n".toList] [] ≠
      some ("535-5.7.8 authentication failed\r\n535 5.7.8 try later\r\n".toList) := by
  decide

/-- Claim C2 amended: the receiver accumulates chunks until the
accumulated reply itself has a digit-digit-digit-space prefix, i.e.
it applies the space-in-column-4 test to the first line only; every
successfully returned reply satisfies that test, a single-line final
reply is returned whole and classifies as `success = false` with code
535, and a multi-line reply whose first line is a continuation line
makes the read fail (no `AuthResult` is produced). -/
theorem smtp_read_response_first_line_framing :
    (∀ (chunks : List (List Char)) (acc r : List Char),
        ReadResponse chunks acc = some r → responseComplete r = true) ∧
    ReadResponse ["535 5.7.8 try later\r\n".toList] [] =
      some ("535 5.7.8 try later\r\n".toList) ∧
    (ProcessResponse ("535 5.7.8 try later\r\n".toList) [] []).success = false ∧
    (ProcessResponse ("535 5.7.8 try later\r\n".toList) [] []).response_code = 535 := by
  refine ⟨?_, by decide, by decide, by decide⟩
  intro chunks
  induction chunks with
  | nil =>
    intro acc r h
    simp [ReadResponse] at h
  | cons ch rest ih =>
    intro acc r h
    simp only [ReadResponse] at h
    by_cases hc : responseComplete (acc ++ ch) = true
    · rw [if_pos hc] at h
      cases h
      exact hc
    · rw [if_neg hc] at h
      exact ih _ _ h

theorem smtp_read_response_first_line_framing_witness :
    responseComplete ("220 ok\r\n".toList) = true :=
  smtp_read_response_first_line_framing.1 ["220 ok\r\n".toList] []
    ("220 ok\r\n".toList) (by decide)

/-- Claim C10: the orchestrator signals exhaustion with the pair of
two empty strings; a worker that draws `("", "")` exits at once, and
the pair `("", "")` is never among the processed credentials, so when
the empty string occurs in both lists the genuine empty-empty pair is
never probed and stops the worker that draws it. -/
theorem exhaustion_sentinel_and_early_stop :
    (∀ (users pwds : List String) (s : Nat × Nat), users.length ≤ s.1 →
        GetNextCredentials users pwds s = (("", ""), s)) ∧
    (∀ (users pwds : List String) (s : Nat × Nat) (fuel : Nat),
        (GetNextCredentials users pwds s).1 = ("", "") →
        WorkerRun users pwds s (fuel + 1) = []) ∧
    (∀ (users pwds : List String) (s : Nat × Nat) (fuel : Nat),
        ("", "") ∉ WorkerRun users pwds s fuel) := by
  refine ⟨?_, ?_, ?_⟩
  · intro users pwds s h
    simp [GetNextCredentials, h]
  · intro users pwds s fuel h
    have h1 : (GetNextCredentials users pwds s).1.1 = "" := by rw [h]
    have h2 : (GetNextCredentials users pwds s).1.2 = "" := by rw [h]
    simp [WorkerRun, h1, h2]
  · intro users pwds s fuel
    induction fuel generalizing s with
    | zero => simp [WorkerRun]
    | succ n ih =>
      simp only [WorkerRun]
      by_cases hc : (GetNextCredentials users pwds s).1.1 = "" ∧
          (GetNextCredentials users pwds s).1.2 = ""
      · simp [hc]
      · rw [if_neg hc]
        simp only [List.mem_cons, not_or]
        refine ⟨?_, ih _⟩
        intro he
        exact hc ⟨congrArg Prod.fst he.symm, congrArg Prod.snd he.symm⟩

theorem exhaustion_sentinel_and_early_stop_witness :
    GetNextCredentials [""] [""] (1, 0) = (("", ""), (1, 0)) ∧
    WorkerRun [""] [""] (1, 0) 1 = [] ∧
    ("", "") ∉ WorkerRun [""] [""] (0, 0) 2 :=
  ⟨exhaustion_sentinel_and_early_stop.1 [""] [""] (1, 0) (by decide),
   exhaustion_sentinel_and_early_stop.2.1 [""] [""] (1, 0) 0 (by decide),
   exhaustion_sentinel_and_early_stop.2.2 [""] [""] (0, 0) 2⟩

end Smtp

namespace Cache

/-- Claim C5: `GetDomain` returns the stored address iff an entry for
the key exists and `now` is strictly before its expiry, and a lookup
on an expired entry reports absence and leaves the map strictly
smaller. -/
theorem cache_lookup_spec :
    (∀ (now : Nat) (cache : List CacheEntry) (k ip : String),
        (GetDomain now cache k).1 = some ip ↔
          ∃ e, findEntry cache k = some e ∧ now < e.expiration_time ∧
            ip = e.ip_address) ∧
    (∀ (now : Nat) (cache : List CacheEntry) (k : String) (e : CacheEntry),
        findEntry cache k = some e → e.expiration_time ≤ now →
        (GetDomain now cache k).1 = none ∧
          (GetDomain now cache k).2.length < cache.length) := by
  constructor
  · intro now cache k ip
    unfold GetDomain
    cases hf : findEntry cache k with
    | none => simp
    | some e =>
      by_cases hnow : now < e.expiration_time
      · simp only [if_pos hnow]
        constructor
        · intro h
          exact ⟨e, rfl, hnow, (Option.some_inj.mp h).symm⟩
        · rintro ⟨e2, he2, hn2, rfl⟩
          cases Option.some_inj.mp he2
          rfl
      · simp only [if_neg hnow]
        constructor
        · intro h
          simp at h
        · rintro ⟨e2, he2, hn2, rfl⟩
          cases Option.some_inj.mp he2
          exact absurd hn2 hnow
  · intro now cache k e hf hexp
    unfold GetDomain
    rw [hf]
    dsimp only
    rw [if_neg (by omega : ¬ now < e.expiration_time)]
    refine ⟨rfl, ?_⟩
    have hf2 : List.find? (fun e2 : CacheEntry => e2.domain == k) cache = some e := hf
    have hmem : e ∈ cache := List.mem_of_find?_eq_some hf2
    have hpe := List.find?_some hf2
    have := List.length_eraseP_add_one (p := fun e2 : CacheEntry => e2.domain == k) hmem hpe
    dsimp only
    omega

theorem cache_lookup_spec_witness :
    ((GetDomain 5 [⟨"a", "1", 10⟩] "a").1 = some "1") ∧
    ((GetDomain 11 [⟨"a", "1", 10⟩] "a").1 = none ∧
      (GetDomain 11 [⟨"a", "1", 10⟩] "a").2.length < 1) :=
  ⟨(cache_lookup_spec.1 5 [⟨"a", "1", 10⟩] "a" "1").mpr
      ⟨⟨"a", "1", 10⟩, by decide, by decide, rfl⟩,
   cache_lookup_spec.2 11 [⟨"a", "1", 10⟩] "a" ⟨"a", "1", 10⟩ (by decide) (by decide)⟩

end Cache

namespace Dns

/-- Claim C1 counterexample: the buffer `[0xC0, 0x02, 0x00]` starts
with a 2-byte pointer at position 0 whose target offset 2 is greater
than the pointer's own position (a forward pointer), yet the decoder
follows it to the terminator byte and succeeds with the empty name
instead of failing. -/
theorem dns_forward_pointer_accepted :
    ExtractDomainName [192, 2, 0] 0 = .ok [] 2 1 := by decide

/-- Claim C1 amended: the source only rejects pointers whose 14-bit
target is at or past the end of the buffer (`target >= length` throws
the malformed-name error); a pointer at the start of a name whose
target is in range is followed even when it points forward, and a
self-pointer is only caught later by the 128-jump limit. -/
theorem dns_pointer_target_past_end_fails (buf : List Nat) (off b0 b1 : Nat)
    (h0 : buf.get? off = some b0) (hp : b0 &&& 192 = 192)
    (h2 : off + 2 ≤ buf.length) (h1 : buf.get? (off + 1) = some b1)
    (ht : buf.length ≤ ((b0 &&& 63) <<< 8) ||| b1) :
    ExtractDomainName buf off = .err .invalidPointerOffset 0 := by
  have hb0 : ¬ b0 = 0 := by
    intro h
    rw [h] at hp
    exact absurd hp (by decide)
  have hlt : ¬ buf.length < off + 2 := by omega
  have hgetD : (buf.get? (off + 1)).getD 0 = b1 := by
    rw [h1]
    rfl
  have hfuel : 130 * (buf.length + 1) + buf.length + 2 =
      (130 * (buf.length + 1) + buf.length + 1) + 1 := by omega
  unfold ExtractDomainName
  rw [hfuel]
  simp only [extractLoop, h0, if_neg hb0, if_pos hp, if_neg hlt,
    if_neg (by decide : ¬ (128 : Nat) < 0), hgetD, if_pos ht]

theorem dns_pointer_target_past_end_fails_witness :
    ExtractDomainName [192, 5] 0 = .err .invalidPointerOffset 0 :=
  dns_pointer_target_past_end_fails [192, 5] 0 192 5 (by decide) (by decide)
    (by decide) (by decide) (by decide)

/-- Claim C4: a 12-byte buffer whose header announces one question
drives `ParseQuestion` to call `ExtractDomainName` at offset 12, where
the source reads `buffer[12]` — one byte past the end — instead of
failing with a truncation error; the model reports the out-of-bounds
access explicitly. -/
theorem dns_parse_reads_past_buffer :
    ParseMessage [0, 1, 0, 0, 0, 1, 0, 0, 0, 0, 0, 0] = .oobRead 12 ∧
    ¬ 12 < ([0, 1, 0, 0, 0, 1, 0, 0, 0, 0, 0, 0] : List Nat).length := by decide

/-- Claim C7 counterexample: in the 3-byte buffer `[0xC0, 0x00, 0x00]`
the first name is a self-pointer (target 0, in range), which the
decoder follows 129 times before the jump counter trips — far more
than the buffer length 3 allowed by the claim. -/
theorem extract_jumps_exceed_buffer_length :
    ExtractDomainName [192, 0, 0] 0 = .err .tooManyJumps 129 ∧
    ¬ resultJumps (ExtractDomainName [192, 0, 0] 0) ≤
        ([192, 0, 0] : List Nat).length := by decide

theorem extractLoop_ne_fuelOut (buf : List Nat) :
    ∀ (fuel off origOff : Nat) (jumped : Bool) (jumps : Nat) (acc : List Nat),
      (129 - jumps) * (buf.length + 1) + (buf.length - off) < fuel →
      extractLoop buf fuel off origOff jumped jumps acc ≠ .fuelOut := by
  intro fuel
  induction fuel with
  | zero =>
    intro off origOff jumped jumps acc h
    exact absurd h (Nat.not_lt_zero _)
  | succ n ih =>
    intro off origOff jumped jumps acc h
    have hoff : ∀ b, buf.get? off = some b → off < buf.length := by
      intro b hb
      by_contra hc
      rw [List.get?_eq_none.mpr (by omega)] at hb
      exact absurd hb (by simp)
    simp only [extractLoop]
    cases hg : buf.get? off with
    | none => simp
    | some b =>
      dsimp only
      by_cases hb0 : b = 0
      · simp [hb0]
      · rw [if_neg hb0]
        by_cases hptr : b &&& 192 = 192
        · rw [if_pos hptr]
          by_cases hsz : buf.length < off + 2
          · simp [hsz]
          · rw [if_neg hsz]
            by_cases hj : 128 < jumps
            · simp [hj]
            · rw [if_neg hj]
              simp only [List.get?_eq_getElem?]
              by_cases htgt : buf.length ≤ ((b &&& 63) <<< 8) ||| buf[off + 1]?.getD 0
              · simp [htgt]
              · rw [if_neg htgt]
                apply ih
                have hsm : (129 - jumps) * (buf.length + 1) =
                    (129 - (jumps + 1)) * (buf.length + 1) + (buf.length + 1) := by
                  have h129 : 129 - jumps = (129 - (jumps + 1)) + 1 := by omega
                  rw [h129, Nat.succ_mul]
                rw [hsm] at h
                generalize (129 - (jumps + 1)) * (buf.length + 1) = t at h ⊢
                omega
        · rw [if_neg hptr]
          by_cases hlab : buf.length < off + 1 + b
          · simp [hlab]
          · rw [if_neg hlab]
            apply ih
            have := hoff b hg
            generalize (129 - jumps) * (buf.length + 1) = t at h ⊢
            omega

theorem extractLoop_jumps_le (buf : List Nat) :
    ∀ (fuel off origOff : Nat) (jumped : Bool) (jumps : Nat) (acc : List Nat),
      jumps ≤ 129 →
      resultJumps (extractLoop buf fuel off origOff jumped jumps acc) ≤ 129 := by
  intro fuel
  induction fuel with
  | zero =>
    intro off origOff jumped jumps acc h
    simp [extractLoop, resultJumps]
  | succ n ih =>
    intro off origOff jumped jumps acc h
    simp only [extractLoop]
    cases buf.get? off with
    | none => simpa [resultJumps] using h
    | some b =>
      dsimp only
      by_cases hb0 : b = 0
      · simpa [hb0, resultJumps] using h
      · rw [if_neg hb0]
        by_cases hptr : b &&& 192 = 192
        · rw [if_pos hptr]
          by_cases hsz : buf.length < off + 2
          · simpa [hsz, resultJumps] using h
          · rw [if_neg hsz]
            by_cases hj : 128 < jumps
            · simpa [hj, resultJumps] using h
            · rw [if_neg hj]
              simp only [List.get?_eq_getElem?]
              by_cases htgt : buf.length ≤ ((b &&& 63) <<< 8) ||| buf[off + 1]?.getD 0
              · simpa [htgt, resultJumps] using h
              · rw [if_neg htgt]
                exact ih _ _ _ _ _ (by omega)
        · rw [if_neg hptr]
          by_cases hlab : buf.length < off + 1 + b
          · simpa [hlab, resultJumps] using h
          · rw [if_neg hlab]
            exact ih _ _ _ _ _ h

/-- Claim C7 amended: name decoding always terminates (the model's
fuel, sized from the buffer length, is never exhausted), and the
number of compression pointers followed is bounded by 129 — the
`maxJumps = 128` counter — rather than by the buffer length. -/
theorem extract_terminates_jump_bound (buf : List Nat) (off : Nat) :
    ExtractDomainName buf off ≠ .fuelOut ∧
    resultJumps (ExtractDomainName buf off) ≤ 129 := by
  constructor
  · apply extractLoop_ne_fuelOut
    have hsm : 130 * (buf.length + 1) = 129 * (buf.length + 1) + (buf.length + 1) := by
      rw [show (130 : Nat) = 129 + 1 from rfl, Nat.succ_mul]
    rw [hsm]
    generalize (129 : Nat) * (buf.length + 1) = t
    omega
  · exact extractLoop_jumps_le buf _ off off false 0 [] (by omega)

end Dns

namespace Smtp

theorem workerRun_succ (users pwds : List String) (s : Nat × Nat) (n : Nat) :
    WorkerRun users pwds s (n + 1) =
      if (GetNextCredentials users pwds s).1.1 = "" ∧
          (GetNextCredentials users pwds s).1.2 = "" then []
      else (GetNextCredentials users pwds s).1 ::
        WorkerRun users pwds (GetNextCredentials users pwds s).2 n := rfl

theorem getNext_stop (users pwds : List String) (ui pi : Nat)
    (h : users.length ≤ ui) :
    GetNextCredentials users pwds (ui, pi) = (("", ""), (ui, pi)) := by
  unfold GetNextCredentials
  dsimp only
  rw [if_pos h]

theorem getNext_go (users pwds : List String) (ui pi : Nat)
    (hui : ui < users.length) :
    GetNextCredentials users pwds (ui, pi) =
      ((users.getD ui "", pwds.getD pi ""),
        if pwds.length ≤ pi + 1 then (ui + 1, 0) else (ui, pi + 1)) := by
  unfold GetNextCredentials
  dsimp only
  rw [if_neg (by omega : ¬ users.length ≤ ui)]
  by_cases hw : pwds.length ≤ pi + 1
  · rw [if_pos hw, if_pos hw]
  · rw [if_neg hw, if_neg hw]

theorem rowMajorFrom_of_lt (users pwds : List String) (ui pi : Nat)
    (h : ui < users.length) :
    rowMajorFrom users pwds ui pi =
      ((pwds.drop pi).map (fun p => (users.getD ui "", p)))
        ++ ((users.drop (ui + 1)).flatMap (fun u => pwds.map (fun p => (u, p)))) := by
  rw [rowMajorFrom, if_pos h]

theorem rowMajorFrom_of_ge (users pwds : List String) (ui pi : Nat)
    (h : users.length ≤ ui) :
    rowMajorFrom users pwds ui pi = [] := by
  rw [rowMajorFrom, if_neg (by omega)]

theorem measure_wrap (L P ui pi n : Nat) (hui : ui < L) (hpieq : pi + 1 = P)
    (h : (L - ui) * P - pi < n + 1) : (L - (ui + 1)) * P - 0 < n := by
  have hsm : (L - ui) * P = (L - (ui + 1)) * P + P := by
    have hs : L - ui = (L - (ui + 1)) + 1 := by omega
    rw [hs, Nat.succ_mul]
  rw [hsm] at h
  generalize (L - (ui + 1)) * P = t at h ⊢
  omega

theorem measure_inc (L P ui pi n : Nat) (hui : ui < L) (hpi : pi < P)
    (h : (L - ui) * P - pi < n + 1) : (L - ui) * P - (pi + 1) < n := by
  have hple : P ≤ (L - ui) * P := Nat.le_mul_of_pos_left P (by omega)
  generalize (L - ui) * P = t at h hple ⊢
  omega

theorem workerRun_from (users pwds : List String) (hP : pwds ≠ [])
    (hemp : ¬ ("" ∈ users ∧ "" ∈ pwds)) :
    ∀ (fuel ui pi : Nat), pi < pwds.length →
      (users.length - ui) * pwds.length - pi < fuel →
      WorkerRun users pwds (ui, pi) fuel = rowMajorFrom users pwds ui pi := by
  intro fuel
  induction fuel with
  | zero =>
    intro ui pi hpi h
    exact absurd h (Nat.not_lt_zero _)
  | succ n ih =>
    intro ui pi hpi h
    have hP' : 0 < pwds.length := List.length_pos.mpr hP
    by_cases hui : users.length ≤ ui
    · rw [workerRun_succ, getNext_stop users pwds ui pi hui]
      dsimp only
      rw [if_pos ⟨rfl, rfl⟩, rowMajorFrom_of_ge users pwds ui pi hui]
    · push_neg at hui
      have hu : users.getD ui "" ∈ users := by
        rw [List.getD_eq_getElem users "" hui]
        exact List.getElem_mem hui
      have hpw : pwds.getD pi "" ∈ pwds := by
        rw [List.getD_eq_getElem pwds "" hpi]
        exact List.getElem_mem hpi
      have hne : ¬ (users.getD ui "" = "" ∧ pwds.getD pi "" = "") := by
        rintro ⟨h1, h2⟩
        exact hemp ⟨h1 ▸ hu, h2 ▸ hpw⟩
      rw [workerRun_succ, getNext_go users pwds ui pi hui]
      dsimp only
      rw [if_neg hne]
      have hdrop : pwds.drop pi = pwds.getD pi "" :: pwds.drop (pi + 1) := by
        rw [List.drop_eq_getElem_cons hpi, List.getD_eq_getElem pwds "" hpi]
      by_cases hw : pwds.length ≤ pi + 1
      · rw [if_pos hw]
        rw [ih (ui + 1) 0 hP'
          (measure_wrap users.length pwds.length ui pi n hui (by omega) h)]
        rw [rowMajorFrom_of_lt users pwds ui pi hui, hdrop,
          List.drop_eq_nil_of_le (by omega : pwds.length ≤ pi + 1),
          List.map_cons, List.map_nil]
        by_cases hui2 : ui + 1 < users.length
        · rw [rowMajorFrom_of_lt users pwds (ui + 1) 0 hui2]
          have hdropu : users.drop (ui + 1) =
              users.getD (ui + 1) "" :: users.drop (ui + 2) := by
            rw [List.drop_eq_getElem_cons hui2, List.getD_eq_getElem users "" hui2]
          rw [hdropu, List.flatMap_cons, List.drop_zero]
          simp
        · rw [rowMajorFrom_of_ge users pwds (ui + 1) 0 (by omega)]
          rw [List.drop_eq_nil_of_le (by omega : users.length ≤ ui + 1),
            List.flatMap_nil]
          simp
      · rw [if_neg hw]
        rw [ih ui (pi + 1) (by omega)
          (measure_inc users.length pwds.length ui pi n hui hpi h)]
        rw [rowMajorFrom_of_lt users pwds ui pi hui,
          rowMajorFrom_of_lt users pwds ui (pi + 1) hui, hdrop, List.map_cons]
        simp

/-- Claim C6 counterexample: with `usernames = [""]` and
`passwords = [""]`, the single product pair `("", "")` is drawn but is
indistinguishable from the exhaustion sentinel, so the worker exits
without processing it: the processed sequence is empty while the
row-major product is `[("", "")]`. -/
theorem worker_empty_pair_breaks_product :
    WorkerRun [""] [""] (0, 0) 2 = [] ∧
    rowMajor [""] [""] = [("", "")] ∧
    WorkerRun [""] [""] (0, 0) 2 ≠ rowMajor [""] [""] := by decide

/-- Claim C6 amended: provided the passwords list is non-empty and the
empty string does not occur in both lists (so no drawn pair collides
with the `("", "")` sentinel), a worker given enough fuel processes
exactly the cartesian product `usernames x passwords` in row-major
order; the processed pairs are moreover pairwise distinct when both
input lists are duplicate-free. -/
theorem worker_processes_row_major_product (users pwds : List String) (fuel : Nat)
    (hP : pwds ≠ []) (hemp : ¬ ("" ∈ users ∧ "" ∈ pwds))
    (hfuel : users.length * pwds.length < fuel) :
    WorkerRun users pwds (0, 0) fuel = rowMajor users pwds ∧
    (users.Nodup → pwds.Nodup → (rowMajor users pwds).Nodup) := by
  constructor
  · have h0 := workerRun_from users pwds hP hemp fuel 0 0
      (List.length_pos.mpr hP) (by simpa using hfuel)
    rw [h0]
    cases users with
    | nil => rw [rowMajorFrom, if_neg (by simp)]; rfl
    | cons u us =>
      rw [rowMajorFrom, if_pos (by simp)]
      simp [rowMajor]
  · intro h1 h2
    have : rowMajor users pwds = users.product pwds := rfl
    rw [this]
    exact List.Nodup.product h1 h2

theorem worker_processes_row_major_product_witness :
    WorkerRun ["a"] ["b"] (0, 0) 2 = rowMajor ["a"] ["b"] ∧
    (rowMajor ["a"] ["b"]).Nodup := by
  have h := worker_processes_row_major_product ["a"] ["b"] 2 (by decide)
    (by simp) (by decide)
  exact ⟨h.1, h.2 (by decide) (by decide)⟩

end Smtp

namespace Base64

theorem and63_eq_mod (n : Nat) : n &&& 63 = n % 64 := by
  have h := Nat.and_pow_two_sub_one_eq_mod n 6
  norm_num at h
  exact h

theorem and255_eq_mod (n : Nat) : n &&& 255 = n % 256 := by
  have h := Nat.and_pow_two_sub_one_eq_mod n 8
  norm_num at h
  exact h

theorem sextet_lt (t k : Nat) : (t >>> k) &&& 63 < 64 := by
  rw [and63_eq_mod]
  exact Nat.mod_lt _ (by norm_num)

theorem and63_lt (t : Nat) : t &&& 63 < 64 := by
  rw [and63_eq_mod]
  exact Nat.mod_lt _ (by norm_num)

theorem encChar_not_space : ∀ i, i < 64 → isSpaceChar (encChar i) = false := by decide

theorem encChar_ne_pad : ∀ i, i < 64 → encChar i ≠ '=' := by decide

theorem dec_enc : ∀ i, i < 64 → decByte (encChar i) = i := by decide

theorem decByte_enc_ne : ∀ i, i < 64 → decByte (encChar i) ≠ 255 := by decide

theorem decodeLoop_nil (cap fuel : Nat) (out : List Nat) :
    decodeLoop cap fuel [] out = out := by
  cases fuel with
  | zero => rfl
  | succ n => simp [decodeLoop]

theorem decodeLoop_quad (cap fuel a b c : Nat) (ha : a < 256) (hb : b < 256)
    (hc : c < 256) (s : List Char) (out : List Nat) (hcap : out.length + 3 ≤ cap) :
    decodeLoop cap (fuel + 1) (encodeQuad a b c ++ s) out =
      decodeLoop cap fuel s (out ++ [a, b, c]) := by
  have h0 := sextet_lt ((a <<< 16) + (b <<< 8) + c) 18
  have h1 := sextet_lt ((a <<< 16) + (b <<< 8) + c) 12
  have h2 := sextet_lt ((a <<< 16) + (b <<< 8) + c) 6
  have h3 := and63_lt ((a <<< 16) + (b <<< 8) + c)
  have hre : (((((a <<< 16) + (b <<< 8) + c) >>> 18) &&& 63) <<< 18)
      + (((((a <<< 16) + (b <<< 8) + c) >>> 12) &&& 63) <<< 12)
      + (((((a <<< 16) + (b <<< 8) + c) >>> 6) &&& 63) <<< 6)
      + (((a <<< 16) + (b <<< 8) + c) &&& 63)
      = (a <<< 16) + (b <<< 8) + c := by
    simp only [and63_eq_mod, Nat.shiftLeft_eq, Nat.shiftRight_eq_div_pow]
    norm_num
    omega
  have hb1 : (((a <<< 16) + (b <<< 8) + c) >>> 16) &&& 255 = a := by
    simp only [and255_eq_mod, Nat.shiftLeft_eq, Nat.shiftRight_eq_div_pow]
    norm_num
    omega
  have hb2 : (((a <<< 16) + (b <<< 8) + c) >>> 8) &&& 255 = b := by
    simp only [and255_eq_mod, Nat.shiftLeft_eq, Nat.shiftRight_eq_div_pow]
    norm_num
    omega
  have hb3 : ((a <<< 16) + (b <<< 8) + c) &&& 255 = c := by
    simp only [and255_eq_mod, Nat.shiftLeft_eq]
    norm_num
    omega
  simp only [encodeQuad, List.cons_append, List.nil_append, decodeLoop,
    List.dropWhile_cons, encChar_not_space _ h0, Bool.false_eq_true, if_false]
  rw [if_neg (encChar_ne_pad _ h0), if_neg (encChar_ne_pad _ h1),
    if_neg (encChar_ne_pad _ h2), if_neg (encChar_ne_pad _ h3),
    dec_enc _ h0, dec_enc _ h1, dec_enc _ h2, dec_enc _ h3, hre, hb1, hb2, hb3]
  have hp1 : pushCap cap out a = out ++ [a] := by
    rw [pushCap, if_pos (by omega)]
  have hp2 : pushCap cap (out ++ [a]) b = out ++ [a, b] := by
    rw [pushCap, if_pos (by simp; omega)]
    simp
  have hp3 : pushCap cap (out ++ [a, b]) c = out ++ [a, b, c] := by
    rw [pushCap, if_pos (by simp; omega)]
    simp
  rw [hp1, hp2, hp3]

theorem take3_quad (a b c : Nat) : (encodeQuad a b c).take 3 =
    [encChar ((((a <<< 16) + (b <<< 8) + c) >>> 18) &&& 63),
     encChar ((((a <<< 16) + (b <<< 8) + c) >>> 12) &&& 63),
     encChar ((((a <<< 16) + (b <<< 8) + c) >>> 6) &&& 63)] := rfl

theorem take2_quad (a b c : Nat) : (encodeQuad a b c).take 2 =
    [encChar ((((a <<< 16) + (b <<< 8) + c) >>> 18) &&& 63),
     encChar ((((a <<< 16) + (b <<< 8) + c) >>> 12) &&& 63)] := rfl

theorem decodeLoop_tail2 (cap fuel a b : Nat) (ha : a < 256) (hb : b < 256)
    (out : List Nat) (hcap : cap = out.length + 2) :
    decodeLoop cap (fuel + 1) ((encodeQuad a b 0).take 3 ++ ['=']) out =
      out ++ [a, b] := by
  have h0 := sextet_lt ((a <<< 16) + (b <<< 8) + 0) 18
  have h1 := sextet_lt ((a <<< 16) + (b <<< 8) + 0) 12
  have h2 := sextet_lt ((a <<< 16) + (b <<< 8) + 0) 6
  have hre : (((((a <<< 16) + (b <<< 8) + 0) >>> 18) &&& 63) <<< 18)
      + (((((a <<< 16) + (b <<< 8) + 0) >>> 12) &&& 63) <<< 12)
      + (((((a <<< 16) + (b <<< 8) + 0) >>> 6) &&& 63) <<< 6) + 0
      = (a <<< 16) + (b <<< 8) + 0 := by
    simp only [and63_eq_mod, Nat.shiftLeft_eq, Nat.shiftRight_eq_div_pow]
    norm_num
    omega
  have hb1 : (((a <<< 16) + (b <<< 8) + 0) >>> 16) &&& 255 = a := by
    simp only [and255_eq_mod, Nat.shiftLeft_eq, Nat.shiftRight_eq_div_pow]
    norm_num
    omega
  have hb2 : (((a <<< 16) + (b <<< 8) + 0) >>> 8) &&& 255 = b := by
    simp only [and255_eq_mod, Nat.shiftLeft_eq, Nat.shiftRight_eq_div_pow]
    norm_num
    omega
  rw [take3_quad]
  simp only [List.cons_append, List.nil_append, decodeLoop,
    List.dropWhile_cons, encChar_not_space _ h0, Bool.false_eq_true, if_false]
  rw [if_neg (encChar_ne_pad _ h0), if_neg (encChar_ne_pad _ h1),
    if_neg (encChar_ne_pad _ h2), dec_enc _ h0, dec_enc _ h1, dec_enc _ h2]
  simp only [if_true]
  rw [hre, hb1, hb2]
  have hp1 : pushCap cap out a = out ++ [a] := by
    rw [pushCap, if_pos (by omega)]
  have hp2 : pushCap cap (out ++ [a]) b = out ++ [a, b] := by
    rw [pushCap, if_pos (by simp; omega)]
    simp
  have hp3 : pushCap cap (out ++ [a, b]) (((a <<< 16) + (b <<< 8) + 0) &&& 255) =
      out ++ [a, b] := by
    rw [pushCap, if_neg (by simp; omega)]
  rw [hp1, hp2, hp3, decodeLoop_nil]

theorem decodeLoop_tail1 (cap fuel a : Nat) (ha : a < 256)
    (out : List Nat) (hcap : cap = out.length + 1) :
    decodeLoop cap (fuel + 1) ((encodeQuad a 0 0).take 2 ++ ['=', '=']) out =
      out ++ [a] := by
  have h0 := sextet_lt ((a <<< 16) + (0 <<< 8) + 0) 18
  have h1 := sextet_lt ((a <<< 16) + (0 <<< 8) + 0) 12
  have hre : (((((a <<< 16) + (0 <<< 8) + 0) >>> 18) &&& 63) <<< 18)
      + (((((a <<< 16) + (0 <<< 8) + 0) >>> 12) &&& 63) <<< 12) + (0 <<< 6) + 0
      = (a <<< 16) + (0 <<< 8) + 0 := by
    simp only [and63_eq_mod, Nat.shiftLeft_eq, Nat.shiftRight_eq_div_pow]
    norm_num
    omega
  have hb1 : (((a <<< 16) + (0 <<< 8) + 0) >>> 16) &&& 255 = a := by
    simp only [and255_eq_mod, Nat.shiftLeft_eq, Nat.shiftRight_eq_div_pow]
    norm_num
    omega
  rw [take2_quad]
  simp only [List.cons_append, List.nil_append, decodeLoop,
    List.dropWhile_cons, encChar_not_space _ h0, Bool.false_eq_true, if_false]
  rw [if_neg (encChar_ne_pad _ h0), if_neg (encChar_ne_pad _ h1),
    dec_enc _ h0, dec_enc _ h1]
  simp only [if_true]
  rw [hre, hb1]
  have hp1 : pushCap cap out a = out ++ [a] := by
    rw [pushCap, if_pos (by omega)]
  have hp2 : pushCap cap (out ++ [a]) ((((a <<< 16) + (0 <<< 8) + 0) >>> 8) &&& 255) =
      out ++ [a] := by
    rw [pushCap, if_neg (by simp; omega)]
  have hp3 : pushCap cap (out ++ [a]) (((a <<< 16) + (0 <<< 8) + 0) &&& 255) =
      out ++ [a] := by
    rw [pushCap, if_neg (by simp; omega)]
  rw [hp1, hp2, hp3, decodeLoop_nil]

theorem decode_encodePadded :
    ∀ (fuel : Nat) (s : List Nat) (out : List Nat) (cap : Nat),
      (∀ x ∈ s, x < 256) → cap = out.length + s.length → s.length < fuel →
      decodeLoop cap fuel (encodePadded s) out = out ++ s := by
  intro fuel
  induction fuel with
  | zero =>
    intro s out cap hb hcap h
    exact absurd h (Nat.not_lt_zero _)
  | succ n ih =>
    intro s out cap hb hcap h
    match s with
    | [] =>
      rw [encodePadded, decodeLoop_nil, List.append_nil]
    | [a] =>
      rw [encodePadded, decodeLoop_tail1 cap n a (hb a (by simp)) out (by simpa using hcap)]
    | [a, b] =>
      rw [encodePadded, decodeLoop_tail2 cap n a b (hb a (by simp)) (hb b (by simp))
        out (by simpa using hcap)]
    | a :: b :: c :: rest =>
      rw [encodePadded, decodeLoop_quad cap n a b c (hb a (by simp)) (hb b (by simp))
        (hb c (by simp)) _ out (by simp at hcap ⊢; omega)]
      rw [ih rest (out ++ [a, b, c]) cap (fun x hx => hb x (by simp [hx]))
        (by simp at hcap ⊢; omega) (by simp at h; omega)]
      simp

theorem encodeQuad_length (a b c : Nat) : (encodeQuad a b c).length = 4 := rfl

theorem applyPad_cons (x G : List Char) (r : Nat) (hx : x.length = 4) (hr : 1 ≤ r) :
    applyPad (x ++ G) (r + 3) = x ++ applyPad G r := by
  have hm : (r + 3) % 3 = r % 3 := by omega
  have hol : 4 * ((r + 3 + 2) / 3) = 4 * ((r + 2) / 3) + 4 := by omega
  have hol4 : 4 ≤ 4 * ((r + 2) / 3) := by omega
  rw [applyPad, applyPad]
  simp only [hm, hol]
  by_cases hp : 3 - r % 3 < 3
  · rw [if_pos hp, if_pos hp]
    have hi1 : 4 * ((r + 2) / 3) + 4 - 1 = x.length + (4 * ((r + 2) / 3) - 1) := by omega
    have hi1b : x.length + (4 * ((r + 2) / 3) - 1) - x.length = 4 * ((r + 2) / 3) - 1 := by
      omega
    by_cases hp2 : 3 - r % 3 = 2
    · rw [if_pos hp2, if_pos hp2]
      rw [hi1, List.set_append_right _ _ (by omega), hi1b]
      have hi2 : 4 * ((r + 2) / 3) + 4 - 2 =
          x.length + (4 * ((r + 2) / 3) - 2) := by omega
      have hi2b : x.length + (4 * ((r + 2) / 3) - 2) - x.length =
          4 * ((r + 2) / 3) - 2 := by omega
      rw [hi2, List.set_append_right _ _ (by omega), hi2b]
    · rw [if_neg hp2, if_neg hp2]
      rw [hi1, List.set_append_right _ _ (by omega), hi1b]
  · rw [if_neg hp, if_neg hp]

theorem Encode_eq_encodePadded : ∀ (n : Nat) (s : List Nat), s.length ≤ n →
    Encode s = encodePadded s := by
  intro n
  induction n with
  | zero =>
    intro s h
    have : s = [] := List.eq_nil_of_length_eq_zero (by omega)
    subst this
    rfl
  | succ m ih =>
    intro s h
    match s with
    | [] => rfl
    | [a] =>
      show applyPad (encodeGroups [a]) 1 = encodePadded [a]
      rw [applyPad]
      norm_num
      rfl
    | [a, b] =>
      show applyPad (encodeGroups [a, b]) 2 = encodePadded [a, b]
      rw [applyPad]
      norm_num
      rfl
    | a :: b :: c :: rest =>
      by_cases hr : rest = []
      · subst hr
        have he : Encode [a, b, c] = applyPad (encodeGroups [a, b, c]) 3 := by
          rw [Encode, if_neg (by norm_num)]
          norm_num
        rw [he, applyPad]
        norm_num
        rfl
      · have hrlen : 1 ≤ rest.length := by
          cases rest with
          | nil => exact absurd rfl hr
          | cons x xs => simp
        have hglen : (a :: b :: c :: rest).length = rest.length + 3 := by simp
        rw [Encode, if_neg (by simp), hglen]
        have hgroups : encodeGroups (a :: b :: c :: rest) =
            encodeQuad a b c ++ encodeGroups rest := by
          cases rest with
          | nil => exact absurd rfl hr
          | cons x xs => rfl
        rw [hgroups, applyPad_cons _ _ _ (encodeQuad_length a b c) hrlen]
        rw [encodePadded]
        congr 1
        have hEr : Encode rest = applyPad (encodeGroups rest) rest.length := by
          rw [Encode, if_neg (by omega)]
        rw [← hEr]
        apply ih
        simp at h
        omega

theorem quad_chars_good (a b c : Nat) :
    ∀ ch ∈ encodeQuad a b c, isSpaceChar ch = false ∧ decByte ch ≠ 255 ∧ ch ≠ '=' := by
  intro ch hch
  simp only [encodeQuad, List.mem_cons, List.not_mem_nil, or_false] at hch
  rcases hch with rfl | rfl | rfl | rfl
  · exact ⟨encChar_not_space _ (sextet_lt _ _), decByte_enc_ne _ (sextet_lt _ _),
      encChar_ne_pad _ (sextet_lt _ _)⟩
  · exact ⟨encChar_not_space _ (sextet_lt _ _), decByte_enc_ne _ (sextet_lt _ _),
      encChar_ne_pad _ (sextet_lt _ _)⟩
  · exact ⟨encChar_not_space _ (sextet_lt _ _), decByte_enc_ne _ (sextet_lt _ _),
      encChar_ne_pad _ (sextet_lt _ _)⟩
  · exact ⟨encChar_not_space _ (and63_lt _), decByte_enc_ne _ (and63_lt _),
      encChar_ne_pad _ (and63_lt _)⟩

theorem encodePadded_shape :
    ∀ (n : Nat) (s : List Nat), s.length ≤ n →
      ∃ body pads, encodePadded s = body ++ pads ∧
        (∀ ch ∈ body, isSpaceChar ch = false ∧ decByte ch ≠ 255 ∧ ch ≠ '=') ∧
        body.length + pads.length = 4 * ((s.length + 2) / 3) ∧
        ((s.length % 3 = 0 ∧ pads = []) ∨ (s.length % 3 = 2 ∧ pads = ['=']) ∨
          (s.length % 3 = 1 ∧ pads = ['=', '='])) := by
  intro n
  induction n with
  | zero =>
    intro s hle
    have : s = [] := List.eq_nil_of_length_eq_zero (by omega)
    subst this
    exact ⟨[], [], rfl, by simp, by norm_num, Or.inl ⟨by norm_num, rfl⟩⟩
  | succ m ih =>
    intro s hle
    match s with
    | [] => exact ⟨[], [], rfl, by simp, by norm_num, Or.inl ⟨by norm_num, rfl⟩⟩
    | [a] =>
      refine ⟨(encodeQuad a 0 0).take 2, ['=', '='], rfl, ?_, ?_, ?_⟩
      · intro ch hch
        exact quad_chars_good a 0 0 ch (List.mem_of_mem_take hch)
      · simp [List.length_take, encodeQuad_length]
      · exact Or.inr (Or.inr ⟨by norm_num, rfl⟩)
    | [a, b] =>
      refine ⟨(encodeQuad a b 0).take 3, ['='], rfl, ?_, ?_, ?_⟩
      · intro ch hch
        exact quad_chars_good a b 0 ch (List.mem_of_mem_take hch)
      · simp [List.length_take, encodeQuad_length]
      · exact Or.inr (Or.inl ⟨by norm_num, rfl⟩)
    | a :: b :: c :: rest =>
      obtain ⟨body, pads, hb, hg, hl, hc⟩ := ih rest (by simp at hle; omega)
      refine ⟨encodeQuad a b c ++ body, pads, ?_, ?_, ?_, ?_⟩
      · rw [encodePadded, hb, List.append_assoc]
      · intro ch hch
        rcases List.mem_append.mp hch with hch2 | hch2
        · exact quad_chars_good a b c ch hch2
        · exact hg ch hch2
      · simp only [List.length_append, encodeQuad_length, List.length_cons]
        omega
      · have hmod : (a :: b :: c :: rest).length % 3 = rest.length % 3 := by
          simp only [List.length_cons]
          omega
        rw [hmod]
        exact hc

theorem isValidGo_shape :
    ∀ (body pads : List Char) (len i : Nat),
      (∀ ch ∈ body, isSpaceChar ch = false ∧ decByte ch ≠ 255 ∧ ch ≠ '=') →
      (pads = [] ∨ pads = ['='] ∨ pads = ['=', '=']) →
      i + body.length + pads.length = len →
      isValidGo len (body ++ pads) i 0 = true := by
  intro body
  induction body with
  | nil =>
    intro pads len i hg hp hlen
    rcases hp with rfl | rfl | rfl
    · rfl
    · simp only [List.nil_append, List.length_nil, List.length_cons] at hlen ⊢
      rw [isValidGo, if_pos rfl, if_neg (by omega : ¬ (2 < 0 + 1 ∨ i < len - 2))]
      rfl
    · simp only [List.nil_append, List.length_nil, List.length_cons] at hlen ⊢
      rw [isValidGo, if_pos rfl, if_neg (by omega : ¬ (2 < 0 + 1 ∨ i < len - 2))]
      rw [isValidGo, if_pos rfl, if_neg (by omega : ¬ (2 < 1 + 1 ∨ i + 1 < len - 2))]
      rfl
  | cons ch rest ih =>
    intro pads len i hg hp hlen
    have hch := hg ch (by simp)
    simp only [List.cons_append]
    rw [isValidGo, if_neg hch.2.2, if_neg (by omega : ¬ (0:Nat) < 0),
      if_neg (fun hcc => hch.2.1 hcc.2)]
    apply ih pads len (i + 1) (fun x hx => hg x (by simp [hx])) hp
    simp only [List.length_cons] at hlen
    omega

theorem isValid_encode (s : List Nat) : IsValid (Encode s) = true := by
  by_cases hs : s = []
  · subst hs
    rfl
  · have hbridge : Encode s = encodePadded s := Encode_eq_encodePadded s.length s le_rfl
    obtain ⟨body, pads, hb, hg, hl, hc⟩ := encodePadded_shape s.length s le_rfl
    have hE : Encode s = body ++ pads := by rw [hbridge, hb]
    have hslen : 1 ≤ s.length := List.length_pos.mpr hs
    have hk : 1 ≤ (s.length + 2) / 3 := by omega
    have hlenE : (Encode s).length = 4 * ((s.length + 2) / 3) := by
      rw [hE, List.length_append]
      omega
    rw [IsValid]
    rw [if_neg (fun hemp => by
      have := List.isEmpty_iff_length_eq_zero.mp hemp
      omega)]
    rw [if_neg (by
      push_neg
      rw [hlenE]
      omega)]
    rw [hE]
    have hlen2 : (Encode s).length = body.length + pads.length := by
      rw [hE, List.length_append]
    apply isValidGo_shape body pads _ 0 hg
    · rcases hc with ⟨_, h2⟩ | ⟨_, h2⟩ | ⟨_, h2⟩ <;> simp [h2]
    · rw [List.length_append]
      omega

theorem DecodeBytes_eq (input : List Char) (hv : IsValid input = true) :
    DecodeBytes input = some (decodeLoop
      ((input.length / 4) * 3 -
        ((if input ≠ [] ∧ input.getD (input.length - 1) '?' = '=' then 1 else 0) +
          (if 1 < input.length ∧ input.getD (input.length - 2) '?' = '=' then 1 else 0)))
      (input.length + 1) input []) := by
  rw [DecodeBytes, if_pos hv]

/-- Claim C9: decoding the Base64 encoding of any byte string gives
the byte string back, and the encoding's length is `4 * ceil(n / 3)`
over the standard alphabet with `'='` padding.  (`Base64::Decode` is
`DecodeBytes` re-wrapped as a string.) -/
theorem base64_decode_encode_roundtrip (s : List Nat) (h : ∀ x ∈ s, x < 256) :
    DecodeBytes (Encode s) = some s ∧
    (Encode s).length = 4 * ((s.length + 2) / 3) := by
  have hbridge : Encode s = encodePadded s := Encode_eq_encodePadded s.length s le_rfl
  obtain ⟨body, pads, hb, hg, hl, hc⟩ := encodePadded_shape s.length s le_rfl
  have hE : Encode s = body ++ pads := by rw [hbridge, hb]
  have hlenE : (Encode s).length = 4 * ((s.length + 2) / 3) := by
    rw [hE, List.length_append]
    omega
  refine ⟨?_, hlenE⟩
  by_cases hs : s = []
  · subst hs
    rfl
  · have hslen : 1 ≤ s.length := List.length_pos.mpr hs
    have hk : 1 ≤ (s.length + 2) / 3 := by omega
    have hfuel : s.length < (Encode s).length + 1 := by
      rw [hlenE]
      omega
    rw [DecodeBytes_eq (Encode s) (isValid_encode s)]
    have hgoodD : ∀ idx, idx < body.length → body.getD idx '?' ≠ '=' := by
      intro idx hidx
      rw [List.getD_eq_getElem body '?' hidx]
      exact (hg _ (List.getElem_mem hidx)).2.2
    rcases hc with ⟨hm, rfl⟩ | ⟨hm, rfl⟩ | ⟨hm, rfl⟩
    · -- no padding: input length a multiple of three
      have hbl : body.length = 4 * ((s.length + 2) / 3) := by simpa using hl
      have hle4 : 4 ≤ body.length := by omega
      have hp1 : (if Encode s ≠ [] ∧ (Encode s).getD ((Encode s).length - 1) '?' = '='
          then (1:Nat) else 0) = 0 := by
        rw [hE, List.append_nil, if_neg]
        rintro ⟨-, hgd⟩
        exact hgoodD _ (by omega) hgd
      have hp2 : (if 1 < (Encode s).length ∧ (Encode s).getD ((Encode s).length - 2) '?' = '='
          then (1:Nat) else 0) = 0 := by
        rw [hE, List.append_nil, if_neg]
        rintro ⟨-, hgd⟩
        exact hgoodD _ (by omega) hgd
      have hcap : ((Encode s).length / 4) * 3 - (0 + 0) = s.length := by
        rw [hlenE]
        omega
      rw [hp1, hp2, hcap, hbridge]
      rw [decode_encodePadded ((encodePadded s).length + 1) s [] s.length h (by simp)
        (by rw [← hbridge]; exact hfuel)]
      rfl
    · -- one '=' of padding
      have hbl : body.length + 1 = 4 * ((s.length + 2) / 3) := by simpa using hl
      have hle3 : 3 ≤ body.length := by omega
      have hp1 : (if Encode s ≠ [] ∧ (Encode s).getD ((Encode s).length - 1) '?' = '='
          then (1:Nat) else 0) = 1 := by
        rw [hE, if_pos]
        refine ⟨by simp, ?_⟩
        rw [List.length_append,
          show body.length + (['='] : List Char).length - 1 = body.length from by simp,
          List.getD_append_right body ['='] '?' body.length le_rfl]
        simp
      have hp2 : (if 1 < (Encode s).length ∧ (Encode s).getD ((Encode s).length - 2) '?' = '='
          then (1:Nat) else 0) = 0 := by
        rw [hE, if_neg]
        rintro ⟨-, hgd⟩
        rw [List.length_append,
          show body.length + (['='] : List Char).length - 2 = body.length - 1 from by simp,
          List.getD_append body ['='] '?' _ (by omega)] at hgd
        exact hgoodD _ (by omega) hgd
      have hcap : ((Encode s).length / 4) * 3 - (1 + 0) = s.length := by
        rw [hlenE]
        omega
      rw [hp1, hp2, hcap, hbridge]
      rw [decode_encodePadded ((encodePadded s).length + 1) s [] s.length h (by simp)
        (by rw [← hbridge]; exact hfuel)]
      rfl
    · -- two '=' of padding
      have hbl : body.length + 2 = 4 * ((s.length + 2) / 3) := by simpa using hl
      have hle2 : 2 ≤ body.length := by omega
      have hp1 : (if Encode s ≠ [] ∧ (Encode s).getD ((Encode s).length - 1) '?' = '='
          then (1:Nat) else 0) = 1 := by
        rw [hE, if_pos]
        refine ⟨by simp, ?_⟩
        rw [List.length_append,
          show body.length + (['=', '='] : List Char).length - 1 = body.length + 1 from by simp,
          List.getD_append_right body ['=', '='] '?' (body.length + 1) (by omega)]
        simp
      have hp2 : (if 1 < (Encode s).length ∧ (Encode s).getD ((Encode s).length - 2) '?' = '='
          then (1:Nat) else 0) = 1 := by
        rw [hE, if_pos]
        refine ⟨by simp, ?_⟩
        rw [List.length_append,
          show body.length + (['=', '='] : List Char).length - 2 = body.length from by simp,
          List.getD_append_right body ['=', '='] '?' body.length le_rfl]
        simp
      rw [hp1, hp2]
      have hcap : ((Encode s).length / 4) * 3 - (1 + 1) = s.length := by
        rw [hlenE]
        omega
      rw [hcap, hbridge]
      rw [decode_encodePadded ((encodePadded s).length + 1) s [] s.length h (by simp)
        (by rw [← hbridge]; exact hfuel)]
      rfl

theorem base64_decode_encode_roundtrip_witness :
    DecodeBytes (Encode [104, 105]) = some [104, 105] ∧
    (Encode [104, 105]).length = 4 * ((([104, 105] : List Nat).length + 2) / 3) := by
  exact base64_decode_encode_roundtrip [104, 105] (by decide)

end Base64

end SmtpPorting
